import Mathlib

/-!
Verification of the borealis Box/View child-management, focus-navigation and
task-scheduler core against its natural-language specification.

The definitions below are a shallow embedding of the C++ sources:
`library/lib/core/box.cpp` (Box child management, default-focus resolution,
directional focus navigation, XML attribute forwarding) and the Threading
unit (sync/delayed task queues).  `size_t` values are modelled as `Nat`
with explicit reduction modulo `2 ^ 64` where overflow matters; times are
modelled as `Int` milliseconds; fallible operations return `Except`.
-/

namespace Borealis

/-- Machine `size_t` arithmetic wraps modulo `2 ^ 64`. -/
def size_t_mod : Nat := 2 ^ 64

/-! ## Box child management (`Box::addView` / `Box::removeView`)

A `CView` carries the data of a child view that `Box::addView` and
`Box::removeView` inspect: its identity, its `detached` flag and the
identity of its layout node (`YGNode`).  A `Child` is a view together with
the `size_t` index cache that the Box allocates and stores as the child's
parent user-data.  `BoxCM` is the part of the Box state these operations
touch: the child sequence, the layout-node child list (`YGNode` children,
holding only non-detached children) and the layout-dirty flag set by
`invalidate()`. -/

structure CView where
  vid : Nat
  detached : Bool
  ygNode : Nat
deriving DecidableEq, Repr

structure Child where
  view : CView
  userData : Nat
deriving DecidableEq, Repr

structure BoxCM where
  children : List Child
  ygChildren : List Nat
  layoutDirty : Bool
deriving DecidableEq, Repr

/-- Lifecycle hooks invoked by child management (`willAppear`,
`willDisappear`, `freeView`). -/
inductive BoxEvent where
  | willAppear (vid : Nat)
  | willDisappear (vid : Nat)
  | freed (vid : Nat)
deriving DecidableEq, Repr

/-- The re-stamping loop of `Box::addView` increments the cached index of a
sibling (`(*index)++`). -/
def incChild (c : Child) : Child :=
  { c with userData := c.userData + 1 }

/-- `Box::addView(View* view, size_t position)`: fatal if
`position > children.size() || position < 0` (the second disjunct is
vacuous for an unsigned `position`); otherwise inserts `view` into the
child sequence at `position`, inserts its layout node at `position` when
the view is not detached (`YGNodeInsertChild`), stamps the new child's
parent user-data with `position`, increments the cached index of every
child after `position`, marks the layout dirty (`invalidate`) and fires
`willAppear`. -/
def addView (s : BoxCM) (v : CView) (position : Nat) :
    Except String (BoxCM × List BoxEvent) :=
  if position > s.children.length ∨ position < 0 then
    .error "cannot insert view: position out of bounds"
  else
    .ok ({ children := s.children.take position
             ++ ⟨v, position⟩ :: (s.children.drop position).map incChild,
           ygChildren :=
             if v.detached then s.ygChildren
             else s.ygChildren.take position ++ v.ygNode :: s.ygChildren.drop position,
           layoutDirty := true },
         [.willAppear v.vid])

/-- The search loop of `Box::removeView`: index (and entry) of the first
child whose view is the argument. -/
def findView : List Child → Nat → Option (Nat × Child)
  | [], _ => none
  | c :: rest, vid =>
    if c.view.vid = vid then some (0, c)
    else (findView rest vid).map (fun p => (p.1 + 1, p.2))

/-- `Box::removeView(View* view, bool free)`: no-op if the view is not
among the children; otherwise removes its layout node when not detached
(`YGNodeRemoveChild`), erases the child at the found index, fires
`willDisappear` (and `freeView` when `free`), and marks the layout
dirty.  It does not re-stamp the cached indices of the remaining
children. -/
def removeView (s : BoxCM) (vid : Nat) (free : Bool) : BoxCM × List BoxEvent :=
  match findView s.children vid with
  | none => (s, [])
  | some (i, c) =>
    ({ children := s.children.take i ++ s.children.drop (i + 1),
       ygChildren :=
         if c.view.detached then s.ygChildren
         else s.ygChildren.erase c.view.ygNode,
       layoutDirty := true },
     .willDisappear c.view.vid :: if free then [.freed c.view.vid] else [])

/-- The index-cache invariant: each child's cached index (its parent
user-data) equals its true position in the child sequence. -/
def wellIndexed (s : BoxCM) : Prop :=
  s.children.map Child.userData = List.range s.children.length

instance (s : BoxCM) : Decidable (wellIndexed s) := by
  unfold wellIndexed; infer_instance

/-- `Box::setDefaultFocusedIndex(int index)` touches only the
`defaultFocusedIndex` field (a `size_t`); the setter takes a signed
`int`. -/
structure DefaultFocusBox where
  defaultFocusedIndex : Nat
deriving DecidableEq, Repr

/-- `Box::setDefaultFocusedIndex`: returns immediately when `index < 0`,
otherwise stores the index. -/
def setDefaultFocusedIndex (s : DefaultFocusBox) (index : Int) : DefaultFocusBox :=
  if index < 0 then s
  else { s with defaultFocusedIndex := index.toNat }

/-! ## Focus resolution (`Box::getDefaultFocus`, `Box::getNextFocus`)

An `FView` is a node of the view tree as focus resolution sees it: a leaf
view or a Box with its `focusable` flag, remembered `lastFocusedView`
(modelled as the remembered subtree), `defaultFocusedIndex` and child
sequence. -/

inductive FView where
  | leaf (vid : Nat) (focusable : Bool)
  | box (vid : Nat) (focusable : Bool) (lastFocused : Option FView)
        (defaultFocusedIndex : Nat) (children : List FView)
deriving Repr

mutual

/-- Default-focus resolution.  For a Box this is `Box::getDefaultFocus`:
self if focusable; else, when a `lastFocusedView` is remembered, that
view's own resolution (returned even when null); else the resolution of
the child at `defaultFocusedIndex` when that index is in range and the
resolution is non-null; else the first child in sequence order with a
non-null resolution; else null.  For a leaf view the base resolution is
modelled from the spec: `View::getDefaultFocus` is not part of the given
sources; per the spec a plain view resolves to itself exactly when it is
focusable. -/
def getDefaultFocus : FView → Option FView
  | .leaf vid f => if f then some (.leaf vid f) else none
  | .box vid f lf dfi cs =>
    if f then some (.box vid f lf dfi cs)
    else
      match lf with
      | some v => getDefaultFocus v
      | none =>
        match nthFocus cs dfi with
        | some r => some r
        | none => firstFocus cs

/-- Resolution of the `n`-th child, null when the index is out of range
(the `defaultFocusedIndex < children.size()` branch of
`Box::getDefaultFocus`, and the body of the scan loop of
`Box::getNextFocus`). -/
def nthFocus : List FView → Nat → Option FView
  | [], _ => none
  | c :: _, 0 => getDefaultFocus c
  | _ :: rest, n + 1 => nthFocus rest n

/-- The fallback loop of `Box::getDefaultFocus`: first child in sequence
order whose resolution is non-null. -/
def firstFocus : List FView → Option FView
  | [] => none
  | c :: rest =>
    match getDefaultFocus c with
    | some r => some r
    | none => firstFocus rest

end

mutual

/-- True when no Box in the tree remembers a `lastFocusedView` (the state
of a freshly built tree; `lastFocusedView` is null until a focus event
stores one). -/
def noLastFocus : FView → Bool
  | .leaf _ _ => true
  | .box _ _ lf _ cs =>
    (match lf with | none => true | some _ => false) && noLastFocusList cs

def noLastFocusList : List FView → Bool
  | [] => true
  | c :: rest => noLastFocus c && noLastFocusList rest

end

mutual

/-- All focusable nodes of a tree, in depth-first sequence order. -/
def focusables : FView → List FView
  | .leaf vid f => if f then [.leaf vid f] else []
  | .box vid f lf dfi cs =>
    (if f then [.box vid f lf dfi cs] else []) ++ focusablesList cs

def focusablesList : List FView → List FView
  | [] => []
  | c :: rest => focusables c ++ focusablesList rest

end

inductive Axis where
  | ROW
  | COLUMN
deriving DecidableEq, Repr

inductive FocusDirection where
  | UP
  | RIGHT
  | DOWN
  | LEFT
deriving DecidableEq, Repr

/-- The early-return test of `Box::getNextFocus`: the requested direction
does not match the box axis (`axis == ROW && direction != LEFT &&
direction != RIGHT || axis == COLUMN && direction != UP && direction !=
DOWN`). -/
def directionMismatch (axis : Axis) (direction : FocusDirection) : Prop :=
  (axis = .ROW ∧ direction ≠ .LEFT ∧ direction ≠ .RIGHT)
    ∨ (axis = .COLUMN ∧ direction ≠ .UP ∧ direction ≠ .DOWN)

instance (axis : Axis) (direction : FocusDirection) :
    Decidable (directionMismatch axis direction) := by
  unfold directionMismatch; infer_instance

/-- The traversal offset of `Box::getNextFocus`: `size_t offset = 1`,
reassigned to `-1` (which wraps to `2 ^ 64 - 1` in a `size_t`) for LEFT on
a ROW box and UP on a COLUMN box. -/
def offsetFor (axis : Axis) (direction : FocusDirection) : Nat :=
  if (axis = .ROW ∧ direction = .LEFT) ∨ (axis = .COLUMN ∧ direction = .UP) then
    size_t_mod - 1
  else 1

/-- The sibling-scan loop of `Box::getNextFocus`:
`while (!currentFocus && currentFocusIndex >= 0 && currentFocusIndex <
children.size())` with `currentFocusIndex += offset` each round, all in
`size_t` arithmetic.  The loop is modelled with explicit fuel; the
termination theorem shows the result is fuel-independent from
`children.length + 2` on. -/
def scanFuel (cs : List FView) (offset : Nat) : Nat → Nat → Option FView
  | 0, _ => none
  | fuel + 1, idx =>
    if 0 ≤ idx ∧ idx < cs.length then
      match nthFocus cs idx with
      | some f => some f
      | none => scanFuel cs offset fuel ((idx + offset) % size_t_mod)
    else none

/-- The sibling scan with enough fuel for every run that a `size_t` index
can produce. -/
def scanChildren (cs : List FView) (offset idx : Nat) : Option FView :=
  scanFuel cs offset (cs.length + 2) idx

/-- One level of the ancestor chain seen by `Box::getNextFocus`: the box
axis, its child sequence, and the cached index (parent user-data) of the
view navigation starts from within that box. -/
structure Frame where
  axis : Axis
  children : List FView
  curIndex : Nat
deriving Repr

/-- `Box::getNextFocus(direction, currentView)` along the ancestor chain.
On an axis mismatch the box asks `getParentNavigationDecision` (whose
default implementation recurses to the root and passes the candidate
through unchanged) with a null candidate and then delegates to the parent
box.  On a match it scans the siblings starting from the current view's
cached index plus the offset, passes the outcome through the hook, and
delegates to the parent only when the outcome is null.  The chain ends
with null at the root (`hasParent()` false). -/
def getNextFocusChain : List Frame → FocusDirection → Option FView
  | [], _ => none
  | f :: rest, direction =>
    if directionMismatch f.axis direction then
      getNextFocusChain rest direction
    else
      let offset := offsetFor f.axis direction
      match scanChildren f.children offset ((f.curIndex + offset) % size_t_mod) with
      | some v => some v
      | none => getNextFocusChain rest direction

/-! ## Task scheduler (`Threading`)

A `Task` stands for an opaque `std::function<void()>` body; `throws`
records whether calling it raises an exception (which
`performSyncTasks` catches and logs).  Executing a task is modelled by
its appearance in the executed list of a tick. -/

structure Task where
  tid : Nat
  throws : Bool
deriving DecidableEq, Repr

/-- A delayed task as enqueued by `Threading::delay`: creation timestamp,
delay in milliseconds, body, and the strictly increasing identifier. -/
structure DelayOperation where
  startPoint : Int
  delayMilliseconds : Int
  func : Task
  index : Nat
deriving DecidableEq, Repr

/-- The scheduler state shared between the queue operations:
`m_sync_functions`, `m_delay_tasks`, `m_delay_cancel_set` and
`m_delay_index`. -/
structure TState where
  syncFunctions : List Task
  delayTasks : List DelayOperation
  cancelSet : Finset Nat
  delayIndex : Nat
deriving DecidableEq

/-- `Threading::sync`: append-only enqueue. -/
def Threading.sync (s : TState) (f : Task) : TState :=
  { s with syncFunctions := s.syncFunctions ++ [f] }

/-- `Threading::delay(milliseconds, func)`: records the current time as
the start point, assigns the next identifier (`++m_delay_index`), appends
the operation and returns the identifier. -/
def Threading.delay (s : TState) (now milliseconds : Int) (f : Task) : TState × Nat :=
  ({ s with
      delayTasks := s.delayTasks
        ++ [{ startPoint := now, delayMilliseconds := milliseconds, func := f,
              index := s.delayIndex + 1 }],
      delayIndex := s.delayIndex + 1 },
   s.delayIndex + 1)

/-- `Threading::cancelDelay(iter)`: inserts the identifier into the cancel
set. -/
def Threading.cancelDelay (s : TState) (iter : Nat) : TState :=
  { s with cancelSet := insert iter s.cancelSet }

/-- The delayed-task loop of `Threading::performSyncTasks` over the
swapped-out delayed queue: a task whose identifier is in the cancel set is
dropped and the identifier erased; an elapsed task
(`duration >= delayMilliseconds`) is executed (exceptions caught and
logged) and its identifier erased from the cancel set if present (erasing
an absent element is a no-op, matching the guarded erase of the source);
a not-yet-elapsed task is pushed back onto the live queue.  Returns the
re-enqueued tasks, the final cancel set and the executed tasks, each in
processing order. -/
def processDelayed (now : Int) :
    List DelayOperation → Finset Nat →
      List DelayOperation × Finset Nat × List DelayOperation
  | [], cset => ([], cset, [])
  | d :: rest, cset =>
    if d.index ∈ cset then
      processDelayed now rest (cset.erase d.index)
    else if d.delayMilliseconds ≤ now - d.startPoint then
      let out := processDelayed now rest (cset.erase d.index)
      (out.1, out.2.1, d :: out.2.2)
    else
      let out := processDelayed now rest cset
      (d :: out.1, out.2.1, out.2.2)

/-- `Threading::performSyncTasks()` at wall-clock time `now`: swaps out
and clears the sync queue and runs every swapped-out callback in enqueue
order (a throwing callback is caught and logged, so the following ones
still run), then swaps out the delayed queue and processes it with
`processDelayed`.  Returns the new state, the executed sync bodies and
the executed delayed tasks, each in execution order. -/
def Threading.performSyncTasks (now : Int) (s : TState) :
    TState × List Task × List DelayOperation :=
  let localSync := s.syncFunctions
  let out := processDelayed now s.delayTasks s.cancelSet
  ({ s with syncFunctions := [], delayTasks := out.1, cancelSet := out.2.1 },
   localSync, out.2.2)

/-! ## XML attribute forwarding (`Box::forwardXMLAttribute`,
`Box::applyXMLAttribute`)

An `XView` carries what attribute application inspects: the view's valid
configurable attribute names and, for a Box, the forwarding table
`name → (targetAttributeName, target)`. -/

inductive XView where
  | mk (validAttributes : List String)
       (forwardedAttributes : List (String × String × XView))

def XView.validAttributes : XView → List String
  | .mk va _ => va

def XView.forwardedAttributes : XView → List (String × String × XView)
  | .mk _ fwd => fwd

/-- Lookup in the forwarding table (`forwardedAttributes.count(name)` /
`forwardedAttributes[name]`; a `std::map` holds at most one entry per
key). -/
def lookupForward : List (String × String × XView) → String → Option (String × XView)
  | [], _ => none
  | (k, tn, t) :: rest, name =>
    if k = name then some (tn, t) else lookupForward rest name

/-- Modelled from the spec: `View::isXMLAttributeValid` is not part of the
given sources; per the spec an attribute name is valid exactly when it is
one of the view's registered configurable properties. -/
def isXMLAttributeValid (v : XView) (name : String) : Bool :=
  v.validAttributes.contains name

/-- `Box::applyXMLAttribute(name, value)`: when the forwarding table has
an entry for `name`, redirect to the target's `applyXMLAttribute` with
the target attribute name; otherwise handle locally.  The local base case
is modelled from the spec: `View::applyXMLAttribute` is not part of the
given sources; per the spec it is a string-keyed property set returning
whether the attribute was handled, modelled as handled exactly when the
name is a registered attribute.  Redirection through arbitrary targets is
given explicit fuel. -/
def applyXMLAttribute : Nat → XView → String → String → Bool
  | 0, _, _, _ => false
  | fuel + 1, v, name, value =>
    match lookupForward v.forwardedAttributes name with
    | some (targetName, target) => applyXMLAttribute fuel target targetName value
    | none => v.validAttributes.contains name

/-- `Box::forwardXMLAttribute(attributeName, target,
targetAttributeName)`: fatal when `targetAttributeName` is not a valid
XML attribute of `target`; fatal when `attributeName` is already
forwarded; otherwise registers the redirection. -/
def forwardXMLAttribute (box : XView) (attributeName : String) (target : XView)
    (targetAttributeName : String) : Except String XView :=
  if isXMLAttributeValid target targetAttributeName = false then
    .error "attribute is not a XML valid attribute for target view"
  else if (lookupForward box.forwardedAttributes attributeName).isSome then
    .error "the same attribute cannot be forwarded twice"
  else
    .ok (.mk box.validAttributes
          (box.forwardedAttributes ++ [(attributeName, targetAttributeName, target)]))

/-- Spec-side predicate: a delayed task survives a tick (it is neither
cancelled nor elapsed) and is re-enqueued for the next tick. -/
def keepsTask (now : Int) (cset : Finset Nat) (d : DelayOperation) : Bool :=
  decide (d.index ∉ cset) && decide (now - d.startPoint < d.delayMilliseconds)

/-- Spec-side predicate: a delayed task executes during a tick (it is not
cancelled and its delay has elapsed). -/
def runsTask (now : Int) (cset : Finset Nat) (d : DelayOperation) : Bool :=
  decide (d.index ∉ cset) && decide (d.delayMilliseconds ≤ now - d.startPoint)

/-- Concrete task and scheduler state for the delay scenario. -/
def wTask : Task := ⟨5, false⟩

def wState : TState := (Threading.delay ⟨[], [], ∅, 0⟩ 0 100 wTask).1

/-! ## Concrete states for the index-cache counterexample -/

/-- Projection of a successful `addView` result, with a fallback for the
(unreached) error case. -/
def okState (r : Except String (BoxCM × List BoxEvent)) (fallback : BoxCM) : BoxCM :=
  match r with
  | .ok p => p.1
  | .error _ => fallback

def cexViewA : CView := ⟨1, false, 101⟩

def cexViewB : CView := ⟨2, false, 102⟩

def cexBox0 : BoxCM := ⟨[], [], false⟩

def cexBox1 : BoxCM := okState (addView cexBox0 cexViewA 0) cexBox0

def cexBox2 : BoxCM := okState (addView cexBox1 cexViewB 1) cexBox1

def cexBox3 : BoxCM := (removeView cexBox2 1 false).1

/-- Concrete nested tree for the default-focus witness: a non-focusable
box (with an out-of-range `defaultFocusedIndex`) holding an unfocusable
leaf and a nested non-focusable box around the single focusable leaf. -/
def wTree : FView :=
  FView.box 0 false none 5
    [FView.leaf 1 false, FView.box 2 false none 0 [FView.leaf 3 true]]

theorem getElem?_range_eq (n m : Nat) :
    (List.range n)[m]? = if m < n then some m else none := by
  by_cases h : m < n
  · simp [List.getElem?_range h, h]
  · rw [if_neg h]
    exact List.getElem?_eq_none (by simpa using Nat.le_of_not_lt h)

theorem wellIndexed_getElem {s : BoxCM} (hw : wellIndexed s) (j : Nat) :
    (s.children.map Child.userData)[j]?
      = if j < s.children.length then some j else none := by
  unfold wellIndexed at hw
  rw [hw, getElem?_range_eq]

theorem findView_eq_none {l : List Child} {vid : Nat}
    (h : ∀ c ∈ l, c.view.vid ≠ vid) : findView l vid = none := by
  induction l with
  | nil => rfl
  | cons c rest ih =>
    simp only [findView]
    rw [if_neg (h c (List.mem_cons_self c rest)), ih]
    · rfl
    · exact fun d hd => h d (List.mem_cons_of_mem c hd)

theorem findView_some {l : List Child} {vid : Nat} {i : Nat} {c : Child}
    (h : findView l vid = some (i, c)) :
    i < l.length ∧ l.get? i = some c ∧ c.view.vid = vid := by
  induction l generalizing i with
  | nil => simp [findView] at h
  | cons d rest ih =>
    simp only [findView] at h
    by_cases hd : d.view.vid = vid
    · rw [if_pos hd] at h
      injection h with h2
      injection h2 with ha hb
      subst ha; subst hb
      exact ⟨Nat.succ_pos _, rfl, hd⟩
    · rw [if_neg hd] at h
      obtain ⟨⟨j, e⟩, hrec, hmap⟩ := Option.map_eq_some'.mp h
      injection hmap with ha hb
      subst ha; subst hb
      obtain ⟨h1, h2, h3⟩ := ih hrec
      exact ⟨Nat.succ_lt_succ h1, h2, h3⟩

/-- C6: `addView(view, position)` on a Box reports a fatal error whenever
`position` is out of `[0, childCount]`, and for every `position` within
`[0, childCount]` it inserts the view at that position in the child
sequence and, when the view is not detached, at the same position in the
LayoutNode child list; a detached view leaves the LayoutNode children
untouched. -/
theorem addView_bounds (s : BoxCM) (v : CView) (position : Nat) :
    (s.children.length < position →
      addView s v position = .error "cannot insert view: position out of bounds")
  ∧ (position ≤ s.children.length →
      ∃ s2, addView s v position = .ok (s2, [.willAppear v.vid])
        ∧ s2.children.map Child.view
            = (s.children.map Child.view).take position
              ++ v :: (s.children.map Child.view).drop position
        ∧ (v.detached = false →
            s2.ygChildren
              = s.ygChildren.take position ++ v.ygNode :: s.ygChildren.drop position)
        ∧ (v.detached = true → s2.ygChildren = s.ygChildren)
        ∧ s2.layoutDirty = true) := by
  constructor
  · intro h
    unfold addView
    rw [if_pos (Or.inl h)]
  · intro h
    unfold addView
    rw [if_neg (by omega)]
    refine ⟨_, rfl, ?_, ?_, ?_, rfl⟩
    · have hvc : Child.view ∘ incChild = Child.view := by
        funext c
        simp [incChild]
      simp [List.map_take, List.map_drop, List.map_map, hvc]
    · intro hd
      simp [hd]
    · intro hd
      simp [hd]

/-- C6 witness: inserting at position 5 into a Box with 2 children is
fatal. -/
theorem addView_bounds_witness :
    (BoxCM.mk [⟨⟨10, false, 201⟩, 0⟩, ⟨⟨11, false, 202⟩, 1⟩] [201, 202] false).children.length < 5
  ∧ addView (BoxCM.mk [⟨⟨10, false, 201⟩, 0⟩, ⟨⟨11, false, 202⟩, 1⟩] [201, 202] false)
        ⟨12, false, 203⟩ 5
      = .error "cannot insert view: position out of bounds" :=
  ⟨by decide,
   (addView_bounds
      (BoxCM.mk [⟨⟨10, false, 201⟩, 0⟩, ⟨⟨11, false, 202⟩, 1⟩] [201, 202] false)
      ⟨12, false, 203⟩ 5).1 (by decide)⟩

/-- C7: `removeView(view, free)` on a Box whose child sequence does not
contain the view is a no-op: the state (child sequence, LayoutNode
children, layout-dirty flag) is unchanged and no lifecycle hook or
destruction fires. -/
theorem removeView_absent_noop (s : BoxCM) (vid : Nat) (free : Bool)
    (h : ∀ c ∈ s.children, c.view.vid ≠ vid) :
    removeView s vid free = (s, []) := by
  unfold removeView
  rw [findView_eq_none h]

/-- C7 witness: removing an absent view from a one-child Box changes
nothing and fires no hook. -/
theorem removeView_absent_noop_witness :
    (∀ c ∈ (BoxCM.mk [⟨⟨7, false, 301⟩, 0⟩] [301] false).children, c.view.vid ≠ 9)
  ∧ removeView (BoxCM.mk [⟨⟨7, false, 301⟩, 0⟩] [301] false) 9 true
      = (BoxCM.mk [⟨⟨7, false, 301⟩, 0⟩] [301] false, []) :=
  ⟨by decide,
   removeView_absent_noop (BoxCM.mk [⟨⟨7, false, 301⟩, 0⟩] [301] false) 9 true (by decide)⟩

/-- C10: `setDefaultFocusedIndex(index)` with a negative index is a
silent no-op (the stored index is unchanged, no error path exists), and
a non-negative index is stored as is. -/
theorem setDefaultFocusedIndex_negative_noop (s : DefaultFocusBox) (index : Int) :
    (index < 0 → setDefaultFocusedIndex s index = s)
  ∧ (0 ≤ index →
      (setDefaultFocusedIndex s index).defaultFocusedIndex = index.toNat) := by
  constructor
  · intro h
    unfold setDefaultFocusedIndex
    rw [if_pos h]
  · intro h
    unfold setDefaultFocusedIndex
    rw [if_neg (not_lt.mpr h)]

/-- C10 witness: setting index `-3` on a Box whose stored index is 5
leaves 5 in place. -/
theorem setDefaultFocusedIndex_negative_noop_witness :
    (-3 : Int) < 0 ∧ setDefaultFocusedIndex ⟨5⟩ (-3) = ⟨5⟩ :=
  ⟨by decide, (setDefaultFocusedIndex_negative_noop ⟨5⟩ (-3)).1 (by decide)⟩

/-- C1 counterexample: insert view 1 at position 0 and view 2 at position
1, then remove view 1.  The remaining child sits at position 0 but its
cached index (parent user-data) is still 1, so the cached index does not
equal the true position once `removeView` completes. -/
theorem removeView_stale_index_cex :
    cexBox3.children.map Child.userData = [1] ∧ ¬ wellIndexed cexBox3 := by
  constructor
  · rfl
  · decide

/-- C1 (amended): `addView` preserves the index-cache invariant (after any
in-bounds insertion every cached index equals the true position), and the
child order always equals insertion order minus removals; but `removeView`
does not re-stamp the remaining children, so each child after the removal
point keeps a cached index exceeding its true position by one. -/
theorem addView_removeView_index_cache (s : BoxCM) (v : CView)
    (position vid : Nat) (free : Bool) :
    (wellIndexed s → position ≤ s.children.length →
      ∀ s2 ev, addView s v position = .ok (s2, ev) → wellIndexed s2)
  ∧ (∀ i c, wellIndexed s → findView s.children vid = some (i, c) →
      (removeView s vid free).1.children.map Child.view
          = (s.children.map Child.view).take i
            ++ (s.children.map Child.view).drop (i + 1)
      ∧ ∀ j, ((removeView s vid free).1.children.map Child.userData)[j]?
          = if j < i then some j
            else if j < s.children.length - 1 then some (j + 1) else none) := by
  constructor
  · intro hw hpos s2 ev hok
    unfold addView at hok
    rw [if_neg (by omega)] at hok
    injection hok with hok2
    injection hok2 with hs2 hev
    subst hs2
    have hwj := wellIndexed_getElem hw
    unfold wellIndexed
    have hlen :
        (s.children.take position
          ++ (⟨v, position⟩ : Child) :: (s.children.drop position).map incChild).length
        = s.children.length + 1 := by
      simp
      omega
    rw [hlen]
    apply List.ext_getElem?
    intro j
    rw [getElem?_range_eq]
    have hcomp : (Child.userData ∘ incChild) = (fun u => u + 1) ∘ Child.userData := by
      funext c
      simp [incChild]
    simp only [List.map_append, List.map_take, List.map_cons, List.map_drop,
      List.map_map, hcomp]
    rw [← List.map_map, ← List.map_drop]
    rw [List.getElem?_append]
    simp only [List.length_take, List.length_map]
    rw [Nat.min_eq_left hpos]
    by_cases h1 : j < position
    · rw [if_pos h1, List.getElem?_take, if_pos h1, hwj]
      rw [if_pos (by omega), if_pos (by omega)]
    · rw [if_neg h1]
      rw [List.getElem?_cons]
      by_cases h2 : j - position = 0
      · rw [if_pos h2, if_pos (by omega)]
        congr 1
        show position = j
        omega
      · rw [if_neg h2, List.getElem?_map, List.getElem?_drop, hwj]
        by_cases h3 : j < s.children.length + 1
        · rw [if_pos (by omega), if_pos h3]
          show some (position + (j - position - 1) + 1) = some j
          congr 1
          omega
        · rw [if_neg (by omega), if_neg h3]
          rfl
  · intro i c hw hfind
    obtain ⟨hi, hget, hvid⟩ := findView_some hfind
    have hwj := wellIndexed_getElem hw
    unfold removeView
    rw [hfind]
    constructor
    · simp [List.map_take, List.map_drop]
    · intro j
      simp only [List.map_append, List.map_take, List.map_drop]
      rw [List.getElem?_append]
      simp only [List.length_take, List.length_map]
      rw [Nat.min_eq_left (Nat.le_of_lt hi)]
      by_cases h1 : j < i
      · rw [if_pos h1, List.getElem?_take, if_pos h1, hwj,
          if_pos (by omega), if_pos h1]
      · rw [if_neg h1, List.getElem?_drop, hwj]
        by_cases h2 : j < s.children.length - 1
        · rw [if_pos (by omega), if_neg h1, if_pos h2]
          congr 1
          omega
        · rw [if_neg (by omega), if_neg h1, if_neg h2]

/-- C1 (amended) witness: in the well-indexed two-child Box, removing the
first child leaves the remaining child (now at position 0) with cached
index 1. -/
theorem addView_removeView_index_cache_witness :
    wellIndexed cexBox2
  ∧ findView cexBox2.children 1 = some (0, ⟨cexViewA, 0⟩)
  ∧ ((removeView cexBox2 1 false).1.children.map Child.userData)[0]? = some 1 := by
  refine ⟨by decide, by decide, ?_⟩
  have h := ((addView_removeView_index_cache cexBox2 cexViewA 0 1 false).2 0
      ⟨cexViewA, 0⟩ (by decide) (by decide)).2 0
  rw [h]
  decide

theorem keepsTask_erase_of_ne {now : Int} {cset : Finset Nat} {i : Nat}
    {e : DelayOperation} (h : e.index ≠ i) :
    keepsTask now (cset.erase i) e = keepsTask now cset e := by
  unfold keepsTask
  congr 1
  simp [Finset.mem_erase, h]

theorem runsTask_erase_of_ne {now : Int} {cset : Finset Nat} {i : Nat}
    {e : DelayOperation} (h : e.index ≠ i) :
    runsTask now (cset.erase i) e = runsTask now cset e := by
  unfold runsTask
  congr 1
  simp [Finset.mem_erase, h]

theorem processDelayed_characterization (now : Int) :
    ∀ (l : List DelayOperation) (cset : Finset Nat),
      l.Pairwise (fun a b => a.index ≠ b.index) →
      (processDelayed now l cset).1 = l.filter (keepsTask now cset)
        ∧ (processDelayed now l cset).2.2 = l.filter (runsTask now cset) := by
  intro l
  induction l with
  | nil =>
    intro cset hp
    simp [processDelayed]
  | cons d rest ih =>
    intro cset hp
    obtain ⟨hd, hrest⟩ := List.pairwise_cons.mp hp
    have hkeep : rest.filter (keepsTask now (cset.erase d.index))
        = rest.filter (keepsTask now cset) :=
      List.filter_congr fun e he => keepsTask_erase_of_ne (hd e he).symm
    have hrun : rest.filter (runsTask now (cset.erase d.index))
        = rest.filter (runsTask now cset) :=
      List.filter_congr fun e he => runsTask_erase_of_ne (hd e he).symm
    by_cases hmem : d.index ∈ cset
    · have hkd : keepsTask now cset d = false := by
        simp [keepsTask, hmem]
      have hrd : runsTask now cset d = false := by
        simp [runsTask, hmem]
      simp only [processDelayed, if_pos hmem, List.filter_cons, hkd, hrd,
        if_neg (by simp : ¬ (false = true))]
      obtain ⟨h1, h2⟩ := ih (cset.erase d.index) hrest
      exact ⟨h1.trans hkeep, h2.trans hrun⟩
    · have herase : cset.erase d.index = cset := Finset.erase_eq_of_not_mem hmem
      by_cases helapsed : d.delayMilliseconds ≤ now - d.startPoint
      · have hkd : keepsTask now cset d = false := by
          simp [keepsTask, hmem]
          omega
        have hrd : runsTask now cset d = true := by
          simp [runsTask, hmem, helapsed]
        obtain ⟨h1, h2⟩ := ih cset hrest
        simp only [processDelayed, if_neg hmem, if_pos helapsed, herase,
          List.filter_cons, hkd, hrd]
        constructor
        · simpa using h1
        · simpa using h2
      · have hkd : keepsTask now cset d = true := by
          simp [keepsTask, hmem]
          omega
        have hrd : runsTask now cset d = false := by
          simp [runsTask, hmem]
          omega
        obtain ⟨h1, h2⟩ := ih cset hrest
        simp only [processDelayed, if_neg hmem, if_neg helapsed,
          List.filter_cons, hkd, hrd]
        constructor
        · simpa using h1
        · simpa using h2

theorem processDelayed_cancelSet_subset (now : Int) :
    ∀ (l : List DelayOperation) (cset : Finset Nat) (x : Nat),
      x ∈ (processDelayed now l cset).2.1 → x ∈ cset := by
  intro l
  induction l with
  | nil =>
    intro cset x hx
    simpa [processDelayed] using hx
  | cons d rest ih =>
    intro cset x hx
    by_cases hmem : d.index ∈ cset
    · rw [processDelayed, if_pos hmem] at hx
      exact Finset.mem_of_mem_erase (ih _ _ hx)
    · by_cases helapsed : d.delayMilliseconds ≤ now - d.startPoint
      · rw [processDelayed, if_neg hmem, if_pos helapsed] at hx
        exact Finset.mem_of_mem_erase (ih _ _ hx)
      · rw [processDelayed, if_neg hmem, if_neg helapsed] at hx
        exact ih _ _ hx

theorem processDelayed_cancel_removed (now : Int) :
    ∀ (l : List DelayOperation) (cset : Finset Nat) (d : DelayOperation),
      l.Pairwise (fun a b => a.index ≠ b.index) → d ∈ l → d.index ∈ cset →
      d.index ∉ (processDelayed now l cset).2.1 := by
  intro l
  induction l with
  | nil =>
    intro cset d hp hd
    simp at hd
  | cons e rest ih =>
    intro cset d hp hd hmem
    obtain ⟨hne, hrest⟩ := List.pairwise_cons.mp hp
    rcases List.mem_cons.mp hd with rfl | hdrest
    · rw [processDelayed, if_pos hmem]
      intro hcontra
      exact (Finset.mem_erase.mp
        (processDelayed_cancelSet_subset now rest _ _ hcontra)).1 rfl
    · have hdi : e.index ≠ d.index := hne d hdrest
      by_cases hmem2 : e.index ∈ cset
      · rw [processDelayed, if_pos hmem2]
        exact ih _ d hrest hdrest (Finset.mem_erase.mpr ⟨fun h => hdi h.symm, hmem⟩)
      · by_cases helapsed : e.delayMilliseconds ≤ now - e.startPoint
        · rw [processDelayed, if_neg hmem2, if_pos helapsed]
          exact ih _ d hrest hdrest (Finset.mem_erase.mpr ⟨fun h => hdi h.symm, hmem⟩)
        · rw [processDelayed, if_neg hmem2, if_neg helapsed]
          exact ih _ d hrest hdrest hmem

theorem processDelayed_insert_unrelated (now : Int) :
    ∀ (l : List DelayOperation) (cset : Finset Nat) (i : Nat),
      (∀ d ∈ l, d.index ≠ i) →
      processDelayed now l (insert i cset)
        = ((processDelayed now l cset).1,
           insert i (processDelayed now l cset).2.1,
           (processDelayed now l cset).2.2) := by
  intro l
  induction l with
  | nil =>
    intro cset i h
    simp [processDelayed]
  | cons d rest ih =>
    intro cset i h
    have hdi : d.index ≠ i := h d (List.mem_cons_self d rest)
    have hrest : ∀ e ∈ rest, e.index ≠ i := fun e he => h e (List.mem_cons_of_mem d he)
    have hmemiff : (d.index ∈ insert i cset) = (d.index ∈ cset) := by
      simp [Finset.mem_insert, hdi]
    have herase : (insert i cset).erase d.index = insert i (cset.erase d.index) :=
      Finset.erase_insert_of_ne (fun hcontra => hdi hcontra.symm)
    by_cases hmem : d.index ∈ cset
    · rw [processDelayed, if_pos (by rw [hmemiff]; exact hmem), herase,
        ih (cset.erase d.index) i hrest, processDelayed, if_pos hmem]
    · by_cases helapsed : d.delayMilliseconds ≤ now - d.startPoint
      · rw [processDelayed, if_neg (by rw [hmemiff]; exact hmem), if_pos helapsed,
          herase, ih (cset.erase d.index) i hrest]
        rw [processDelayed, if_neg hmem, if_pos helapsed]
      · rw [processDelayed, if_neg (by rw [hmemiff]; exact hmem), if_neg helapsed,
          ih cset i hrest]
        rw [processDelayed, if_neg hmem, if_neg helapsed]

/-- C4: a delayed task whose identifier is in the cancel set when
`performSyncTasks` dequeues it never executes — it is dropped (neither
executed nor re-enqueued) and its identifier is removed from the cancel
set (one-shot cancellation); and `cancelDelay(iter)` for an identifier
no pending task carries (its task already executed) changes nothing
observable about any other task: the same sync callbacks and the same
delayed tasks execute and re-enqueue, only the cancel set additionally
holds `iter`.  Identifiers of pending tasks are pairwise distinct (they
are allocated from a strictly increasing counter). -/
theorem cancelDelay_semantics (s : TState) (now : Int) (d : DelayOperation)
    (iter : Nat)
    (hp : s.delayTasks.Pairwise (fun a b => a.index ≠ b.index)) :
    (d ∈ s.delayTasks → d.index ∈ s.cancelSet →
      (∀ e ∈ (Threading.performSyncTasks now s).2.2, e.index ≠ d.index)
      ∧ (∀ e ∈ (Threading.performSyncTasks now s).1.delayTasks, e.index ≠ d.index)
      ∧ d.index ∉ (Threading.performSyncTasks now s).1.cancelSet)
  ∧ ((∀ e ∈ s.delayTasks, e.index ≠ iter) →
      Threading.performSyncTasks now (Threading.cancelDelay s iter)
        = ({ (Threading.performSyncTasks now s).1 with
              cancelSet := insert iter (Threading.performSyncTasks now s).1.cancelSet },
           (Threading.performSyncTasks now s).2.1,
           (Threading.performSyncTasks now s).2.2)) := by
  obtain ⟨hkeep, hrun⟩ := processDelayed_characterization now s.delayTasks s.cancelSet hp
  have hprun : (Threading.performSyncTasks now s).2.2
      = s.delayTasks.filter (runsTask now s.cancelSet) := hrun
  have hpkeep : (Threading.performSyncTasks now s).1.delayTasks
      = s.delayTasks.filter (keepsTask now s.cancelSet) := hkeep
  constructor
  · intro hd hmem
    refine ⟨?_, ?_, ?_⟩
    · intro e he hcontra
      have he2 := List.mem_filter.mp (hprun ▸ he)
      have : e.index ∉ s.cancelSet := by
        have := he2.2
        unfold runsTask at this
        simp at this
        exact this.1
      exact this (hcontra ▸ hmem)
    · intro e he hcontra
      have he2 := List.mem_filter.mp (hpkeep ▸ he)
      have : e.index ∉ s.cancelSet := by
        have := he2.2
        unfold keepsTask at this
        simp at this
        exact this.1
      exact this (hcontra ▸ hmem)
    · exact processDelayed_cancel_removed now s.delayTasks s.cancelSet d hp hd hmem
  · intro hnone
    show Threading.performSyncTasks now
        { s with cancelSet := insert iter s.cancelSet } = _
    unfold Threading.performSyncTasks
    rw [show ({ s with cancelSet := insert iter s.cancelSet } : TState).delayTasks
          = s.delayTasks from rfl,
        show ({ s with cancelSet := insert iter s.cancelSet } : TState).cancelSet
          = insert iter s.cancelSet from rfl,
        processDelayed_insert_unrelated now s.delayTasks s.cancelSet iter hnone]

/-- C4 witness: cancelling identifier 1 before its 100 ms task elapses
drops the task at the next tick (nothing with identifier 1 executes) and
removes 1 from the cancel set. -/
theorem cancelDelay_semantics_witness :
    (Threading.cancelDelay wState 1).delayTasks.Pairwise (fun a b => a.index ≠ b.index)
  ∧ (⟨0, 100, wTask, 1⟩ : DelayOperation) ∈ (Threading.cancelDelay wState 1).delayTasks
  ∧ (1 : Nat) ∈ (Threading.cancelDelay wState 1).cancelSet
  ∧ (∀ e ∈ (Threading.performSyncTasks 500 (Threading.cancelDelay wState 1)).2.2,
      e.index ≠ 1)
  ∧ (1 : Nat) ∉ (Threading.performSyncTasks 500 (Threading.cancelDelay wState 1)).1.cancelSet := by
  have h := (cancelDelay_semantics (Threading.cancelDelay wState 1) 500
      ⟨0, 100, wTask, 1⟩ 0 (by decide)).1 (by decide) (by decide)
  exact ⟨by decide, by decide, by decide, h.1, h.2.2⟩

/-- C5: a `performSyncTasks` tick hands every swapped-out sync callback to
execution in enqueue order (throwing callbacks included — a failure is
caught and does not drop later callbacks) and clears the sync queue; a
non-cancelled delayed task executes exactly when its delay has elapsed
(`now - startPoint >= delayMilliseconds`) and is then discarded, and is
re-enqueued untouched otherwise. -/
theorem performSyncTasks_semantics (s : TState) (now : Int)
    (hp : s.delayTasks.Pairwise (fun a b => a.index ≠ b.index)) :
    (Threading.performSyncTasks now s).2.1 = s.syncFunctions
  ∧ (Threading.performSyncTasks now s).1.syncFunctions = []
  ∧ (Threading.performSyncTasks now s).2.2
      = s.delayTasks.filter (runsTask now s.cancelSet)
  ∧ (Threading.performSyncTasks now s).1.delayTasks
      = s.delayTasks.filter (keepsTask now s.cancelSet) := by
  obtain ⟨h1, h2⟩ := processDelayed_characterization now s.delayTasks s.cancelSet hp
  exact ⟨rfl, rfl, h2, h1⟩

/-- C5 witness: `delay(100, f)` then a tick at elapsed 50 ms re-queues the
task without executing it; a tick at elapsed 150 ms executes it exactly
once and discards it. -/
theorem performSyncTasks_semantics_witness :
    wState.delayTasks.Pairwise (fun a b => a.index ≠ b.index)
  ∧ (Threading.performSyncTasks 50 wState).2.2 = []
  ∧ (Threading.performSyncTasks 50 wState).1.delayTasks = wState.delayTasks
  ∧ (Threading.performSyncTasks 50 wState).1.delayTasks.Pairwise
      (fun a b => a.index ≠ b.index)
  ∧ (Threading.performSyncTasks 150 (Threading.performSyncTasks 50 wState).1).2.2
      = [⟨0, 100, wTask, 1⟩]
  ∧ (Threading.performSyncTasks 150 (Threading.performSyncTasks 50 wState).1).1.delayTasks
      = [] := by
  refine ⟨by decide, ?_, ?_, by decide, ?_, ?_⟩
  · rw [(performSyncTasks_semantics wState 50 (by decide)).2.2.1]
    decide
  · rw [(performSyncTasks_semantics wState 50 (by decide)).2.2.2]
    decide
  · rw [(performSyncTasks_semantics (Threading.performSyncTasks 50 wState).1 150
      (by decide)).2.2.1]
    decide
  · rw [(performSyncTasks_semantics (Threading.performSyncTasks 50 wState).1 150
      (by decide)).2.2.2]
    decide

theorem lookupForward_append_none {fwd : List (String × String × XView)}
    {name : String} (h : lookupForward fwd name = none) (tn : String) (t : XView) :
    lookupForward (fwd ++ [(name, tn, t)]) name = some (tn, t) := by
  induction fwd with
  | nil => simp [lookupForward]
  | cons p rest ih =>
    obtain ⟨k, tn2, t2⟩ := p
    rw [lookupForward] at h
    by_cases hk : k = name
    · rw [if_pos hk] at h
      exact absurd h (by simp)
    · rw [if_neg hk] at h
      rw [List.cons_append, lookupForward, if_neg hk]
      exact ih h

/-- C8: `forwardXMLAttribute(name, target, targetName)` reports a fatal
error at registration time when `targetName` is not a valid configurable
XML attribute of `target` or when `name` was already forwarded by this
Box; after a successful registration, `applyXMLAttribute(name, value)` on
the Box redirects to `target`'s `applyXMLAttribute(targetName, value)`
instead of handling the attribute locally. -/
theorem forwardXMLAttribute_semantics (box target : XView)
    (attributeName targetAttributeName value : String) :
    (isXMLAttributeValid target targetAttributeName = false →
      forwardXMLAttribute box attributeName target targetAttributeName
        = .error "attribute is not a XML valid attribute for target view")
  ∧ (isXMLAttributeValid target targetAttributeName = true →
      (lookupForward box.forwardedAttributes attributeName).isSome = true →
      forwardXMLAttribute box attributeName target targetAttributeName
        = .error "the same attribute cannot be forwarded twice")
  ∧ (isXMLAttributeValid target targetAttributeName = true →
      lookupForward box.forwardedAttributes attributeName = none →
      ∃ box2, forwardXMLAttribute box attributeName target targetAttributeName
          = .ok box2
        ∧ lookupForward box2.forwardedAttributes attributeName
            = some (targetAttributeName, target)
        ∧ ∀ fuel, applyXMLAttribute (fuel + 1) box2 attributeName value
            = applyXMLAttribute fuel target targetAttributeName value) := by
  refine ⟨?_, ?_, ?_⟩
  · intro h
    unfold forwardXMLAttribute
    rw [if_pos h]
  · intro h1 h2
    unfold forwardXMLAttribute
    rw [if_neg (by simp [h1]), if_pos h2]
  · intro h1 h2
    unfold forwardXMLAttribute
    rw [if_neg (by simp [h1]), if_neg (by simp [h2])]
    refine ⟨_, rfl, ?_, ?_⟩
    · exact lookupForward_append_none h2 targetAttributeName target
    · intro fuel
      show (match lookupForward
          (box.forwardedAttributes ++ [(attributeName, targetAttributeName, target)])
          attributeName with
        | some (tn, t) => applyXMLAttribute fuel t tn value
        | none => _) = _
      rw [lookupForward_append_none h2 targetAttributeName target]

/-- C8 witness: forwarding to a missing target attribute is fatal at
registration time, while forwarding "header" to the valid "title" of the
target succeeds and redirects later applications. -/
theorem forwardXMLAttribute_semantics_witness :
    isXMLAttributeValid (XView.mk ["title"] []) "missing" = false
  ∧ forwardXMLAttribute (XView.mk [] []) "title" (XView.mk ["title"] []) "missing"
      = .error "attribute is not a XML valid attribute for target view"
  ∧ isXMLAttributeValid (XView.mk ["title"] []) "title" = true
  ∧ lookupForward (XView.mk [] [] : XView).forwardedAttributes "header" = none
  ∧ ∃ box2, forwardXMLAttribute (XView.mk [] []) "header" (XView.mk ["title"] []) "title"
        = .ok box2
      ∧ lookupForward box2.forwardedAttributes "header"
          = some ("title", XView.mk ["title"] [])
      ∧ ∀ fuel, applyXMLAttribute (fuel + 1) box2 "header" "abc"
          = applyXMLAttribute fuel (XView.mk ["title"] []) "title" "abc" :=
  ⟨rfl,
   (forwardXMLAttribute_semantics (XView.mk [] []) (XView.mk ["title"] [])
      "title" "missing" "abc").1 rfl,
   rfl, rfl,
   (forwardXMLAttribute_semantics (XView.mk [] []) (XView.mk ["title"] [])
      "header" "title" "abc").2.2 rfl rfl⟩

theorem size_t_mod_pos : 0 < size_t_mod := by
  unfold size_t_mod
  positivity

theorem scanFuel_out_of_range (cs : List FView) (off : Nat) :
    ∀ fuel idx, ¬ idx < cs.length → scanFuel cs off fuel idx = none := by
  intro fuel idx h
  cases fuel with
  | zero => rfl
  | succ f => rw [scanFuel, if_neg (by simp [h])]

theorem scanFuel_up_congr (cs : List FView) (hlen : cs.length < size_t_mod) :
    ∀ k idx fuel fuel2, cs.length - idx ≤ k →
      cs.length - idx + 1 ≤ fuel → cs.length - idx + 1 ≤ fuel2 →
      scanFuel cs 1 fuel idx = scanFuel cs 1 fuel2 idx := by
  intro k
  induction k with
  | zero =>
    intro idx fuel fuel2 hk h1 h2
    have hidx : ¬ idx < cs.length := by omega
    rw [scanFuel_out_of_range cs 1 fuel idx hidx,
      scanFuel_out_of_range cs 1 fuel2 idx hidx]
  | succ k ih =>
    intro idx fuel fuel2 hk h1 h2
    by_cases hidx : idx < cs.length
    · cases fuel with
      | zero => omega
      | succ f =>
        cases fuel2 with
        | zero => omega
        | succ f2 =>
          rw [scanFuel, scanFuel, if_pos ⟨Nat.zero_le idx, hidx⟩,
            if_pos ⟨Nat.zero_le idx, hidx⟩]
          cases hnth : nthFocus cs idx with
          | some r => simp only [hnth]
          | none =>
            simp only [hnth]
            rw [Nat.mod_eq_of_lt (by omega : idx + 1 < size_t_mod)]
            exact ih (idx + 1) f f2 (by omega) (by omega) (by omega)
    · rw [scanFuel_out_of_range cs 1 fuel idx hidx,
        scanFuel_out_of_range cs 1 fuel2 idx hidx]

theorem scanFuel_down_congr (cs : List FView) (hlen : cs.length < size_t_mod) :
    ∀ k idx fuel fuel2, idx ≤ k →
      idx + 2 ≤ fuel → idx + 2 ≤ fuel2 →
      scanFuel cs (size_t_mod - 1) fuel idx = scanFuel cs (size_t_mod - 1) fuel2 idx := by
  have hpos := size_t_mod_pos
  intro k
  induction k with
  | zero =>
    intro idx fuel fuel2 hk h1 h2
    by_cases hidx : idx < cs.length
    · cases fuel with
      | zero => omega
      | succ f =>
        cases fuel2 with
        | zero => omega
        | succ f2 =>
          rw [scanFuel, scanFuel, if_pos ⟨Nat.zero_le idx, hidx⟩,
            if_pos ⟨Nat.zero_le idx, hidx⟩]
          cases hnth : nthFocus cs idx with
          | some r => simp only [hnth]
          | none =>
            simp only [hnth]
            have hzero : idx = 0 := by omega
            subst hzero
            rw [Nat.zero_add, Nat.mod_eq_of_lt (by omega : size_t_mod - 1 < size_t_mod)]
            rw [scanFuel_out_of_range cs (size_t_mod - 1) f _ (by omega),
              scanFuel_out_of_range cs (size_t_mod - 1) f2 _ (by omega)]
    · rw [scanFuel_out_of_range cs (size_t_mod - 1) fuel idx hidx,
        scanFuel_out_of_range cs (size_t_mod - 1) fuel2 idx hidx]
  | succ k ih =>
    intro idx fuel fuel2 hk h1 h2
    by_cases hidx : idx < cs.length
    · cases fuel with
      | zero => omega
      | succ f =>
        cases fuel2 with
        | zero => omega
        | succ f2 =>
          rw [scanFuel, scanFuel, if_pos ⟨Nat.zero_le idx, hidx⟩,
            if_pos ⟨Nat.zero_le idx, hidx⟩]
          cases hnth : nthFocus cs idx with
          | some r => simp only [hnth]
          | none =>
            simp only [hnth]
            by_cases hzero : idx = 0
            · subst hzero
              rw [Nat.zero_add, Nat.mod_eq_of_lt (by omega : size_t_mod - 1 < size_t_mod)]
              rw [scanFuel_out_of_range cs (size_t_mod - 1) f _ (by omega),
                scanFuel_out_of_range cs (size_t_mod - 1) f2 _ (by omega)]
            · rw [show idx + (size_t_mod - 1) = (idx - 1) + size_t_mod by omega,
                Nat.add_mod_right, Nat.mod_eq_of_lt (by omega : idx - 1 < size_t_mod)]
              exact ih (idx - 1) f f2 (by omega) (by omega) (by omega)
    · rw [scanFuel_out_of_range cs (size_t_mod - 1) fuel idx hidx,
        scanFuel_out_of_range cs (size_t_mod - 1) fuel2 idx hidx]

/-- C9: the sibling-scan loop of `Box::getNextFocus` terminates for every
starting index and child count.  The scan index is an unsigned machine
integer, so stepping left from index 0 wraps modulo `2 ^ 64` to
`2 ^ 64 - 1`, a value not less than `children.size()`, making the loop
guard `index < children.size()` fail; the companion guard `index >= 0`
is vacuously true and never bounds the scan; and in both directions the
loop's result is fuel-independent from `children.length + 2` steps on. -/
theorem getNextFocus_scan_terminates (cs : List FView)
    (hlen : cs.length < size_t_mod) :
    ((0 + (size_t_mod - 1)) % size_t_mod = size_t_mod - 1
      ∧ cs.length ≤ size_t_mod - 1
      ∧ ∀ fuel, scanFuel cs (size_t_mod - 1) fuel (size_t_mod - 1) = none)
  ∧ (∀ idx : Nat, (0 ≤ idx ∧ idx < cs.length) ↔ idx < cs.length)
  ∧ (∀ idx fuel, cs.length + 2 ≤ fuel →
      scanFuel cs 1 fuel idx = scanChildren cs 1 idx)
  ∧ (∀ idx fuel, cs.length + 2 ≤ fuel →
      scanFuel cs (size_t_mod - 1) fuel idx = scanChildren cs (size_t_mod - 1) idx) := by
  have hpos := size_t_mod_pos
  refine ⟨⟨?_, by omega, ?_⟩, ?_, ?_, ?_⟩
  · rw [Nat.zero_add]
    exact Nat.mod_eq_of_lt (by omega)
  · intro fuel
    exact scanFuel_out_of_range cs (size_t_mod - 1) fuel (size_t_mod - 1) (by omega)
  · intro idx
    exact ⟨fun h => h.2, fun h => ⟨Nat.zero_le idx, h⟩⟩
  · intro idx fuel hfuel
    exact scanFuel_up_congr cs hlen cs.length idx fuel (cs.length + 2)
      (by omega) (by omega) (by omega)
  · intro idx fuel hfuel
    by_cases hidx : idx < cs.length
    · exact scanFuel_down_congr cs hlen cs.length idx fuel (cs.length + 2)
        (by omega) (by omega) (by omega)
    · rw [scanFuel_out_of_range cs (size_t_mod - 1) fuel idx hidx]
      unfold scanChildren
      rw [scanFuel_out_of_range cs (size_t_mod - 1) (cs.length + 2) idx hidx]

/-- C9 witness: with two children, stepping left from index 0 exits at the
wrapped index `2 ^ 64 - 1`, and the upward scan from index 0 is already
stable at the definitional fuel. -/
theorem getNextFocus_scan_terminates_witness :
    ([FView.leaf 1 false, FView.leaf 2 true] : List FView).length < size_t_mod
  ∧ scanFuel [FView.leaf 1 false, FView.leaf 2 true] (size_t_mod - 1) 5 (size_t_mod - 1)
      = none
  ∧ scanFuel [FView.leaf 1 false, FView.leaf 2 true] 1 10 0
      = scanChildren [FView.leaf 1 false, FView.leaf 2 true] 1 0 :=
  ⟨by decide,
   (getNextFocus_scan_terminates [FView.leaf 1 false, FView.leaf 2 true]
      (by decide)).1.2.2 5,
   (getNextFocus_scan_terminates [FView.leaf 1 false, FView.leaf 2 true]
      (by decide)).2.2.1 0 10 (by decide)⟩

theorem nthFocus_eq_get :
    ∀ (cs : List FView) (idx : Nat) (h : idx < cs.length),
      nthFocus cs idx = getDefaultFocus (cs.get ⟨idx, h⟩) := by
  intro cs
  induction cs with
  | nil =>
    intro idx h
    simp at h
  | cons c rest ih =>
    intro idx h
    cases idx with
    | zero => rfl
    | succ n => exact ih n (Nat.lt_of_succ_lt_succ h)

theorem nthFocus_all_none {cs : List FView}
    (h : ∀ c ∈ cs, getDefaultFocus c = none) :
    ∀ idx, nthFocus cs idx = none := by
  induction cs with
  | nil =>
    intro idx
    cases idx <;> rfl
  | cons c rest ih =>
    intro idx
    cases idx with
    | zero => exact h c (List.mem_cons_self c rest)
    | succ n => exact ih (fun d hd => h d (List.mem_cons_of_mem c hd)) n

theorem scanFuel_all_none {cs : List FView}
    (h : ∀ c ∈ cs, getDefaultFocus c = none) (off : Nat) :
    ∀ fuel idx, scanFuel cs off fuel idx = none := by
  intro fuel
  induction fuel with
  | zero =>
    intro idx
    rfl
  | succ f ih =>
    intro idx
    rw [scanFuel]
    by_cases hidx : 0 ≤ idx ∧ idx < cs.length
    · rw [if_pos hidx, nthFocus_all_none h idx]
      exact ih _
    · rw [if_neg hidx]

theorem scanFuel_some_exists {cs : List FView} {off : Nat} :
    ∀ fuel idx v, scanFuel cs off fuel idx = some v →
      ∃ i, ∃ h2 : i < cs.length, getDefaultFocus (cs.get ⟨i, h2⟩) = some v := by
  intro fuel
  induction fuel with
  | zero =>
    intro idx v h
    exact absurd h (by rw [scanFuel]; simp)
  | succ f ih =>
    intro idx v h
    rw [scanFuel] at h
    by_cases hidx : 0 ≤ idx ∧ idx < cs.length
    · rw [if_pos hidx] at h
      cases hnth : nthFocus cs idx with
      | some r =>
        rw [hnth] at h
        injection h with hv
        subst hv
        exact ⟨idx, hidx.2, (nthFocus_eq_get cs idx hidx.2).symm.trans hnth⟩
      | none =>
        rw [hnth] at h
        exact ih _ v h
    · rw [if_neg hidx] at h
      exact absurd h (by simp)

/-- C2: when the queried direction is aligned with the Box axis,
`getNextFocus` computes the offset (+1 for RIGHT on a ROW box and DOWN on
a COLUMN box, −1 i.e. `2 ^ 64 - 1` for LEFT on ROW and UP on COLUMN),
scans the siblings starting at the current view's cached index plus the
offset, skipping every sibling whose `getDefaultFocus` resolution is
null, so anything the scan produces is the non-null resolution of some
sibling; and when every scanned box along the chain is exhausted (no
child of any box on the chain resolves, and the pass-through
parent-navigation-decision hook therefore never produces a candidate),
the query returns null. -/
theorem getNextFocus_aligned_scan (axis : Axis) (direction : FocusDirection)
    (cs : List FView) (cur : Nat) (rest frames : List Frame)
    (hlen : cs.length < size_t_mod)
    (halign : ¬ directionMismatch axis direction) :
    (offsetFor .ROW .RIGHT = 1 ∧ offsetFor .COLUMN .DOWN = 1
      ∧ offsetFor .ROW .LEFT = size_t_mod - 1
      ∧ offsetFor .COLUMN .UP = size_t_mod - 1)
  ∧ getNextFocusChain (Frame.mk axis cs cur :: rest) direction
      = (scanChildren cs (offsetFor axis direction)
          ((cur + offsetFor axis direction) % size_t_mod)).elim
          (getNextFocusChain rest direction) some
  ∧ (∀ idx (h : idx < cs.length),
      scanChildren cs (offsetFor axis direction) idx
        = (getDefaultFocus (cs.get ⟨idx, h⟩)).elim
            (scanChildren cs (offsetFor axis direction)
              ((idx + offsetFor axis direction) % size_t_mod)) some)
  ∧ (∀ fuel idx v, scanFuel cs (offsetFor axis direction) fuel idx = some v →
      ∃ i, ∃ h2 : i < cs.length, getDefaultFocus (cs.get ⟨i, h2⟩) = some v)
  ∧ ((∀ fr ∈ frames, ∀ c ∈ fr.children, getDefaultFocus c = none) →
      getNextFocusChain frames direction = none) := by
  have hpos := size_t_mod_pos
  have hoffcases : offsetFor axis direction = 1
      ∨ offsetFor axis direction = size_t_mod - 1 := by
    unfold offsetFor
    by_cases hoff : (axis = .ROW ∧ direction = .LEFT)
        ∨ (axis = .COLUMN ∧ direction = .UP)
    · rw [if_pos hoff]
      exact Or.inr rfl
    · rw [if_neg hoff]
      exact Or.inl rfl
  refine ⟨⟨by decide, by decide, by decide, by decide⟩, ?_, ?_, ?_, ?_⟩
  · rw [getNextFocusChain, if_neg halign]
    cases hscan : scanChildren cs (offsetFor axis direction)
        ((cur + offsetFor axis direction) % size_t_mod) <;>
      simp [hscan, Option.elim]
  · intro idx h
    unfold scanChildren
    rw [show cs.length + 2 = (cs.length + 1) + 1 from rfl, scanFuel,
      if_pos ⟨Nat.zero_le idx, h⟩, nthFocus_eq_get cs idx h]
    cases hget : getDefaultFocus (cs.get ⟨idx, h⟩) with
    | some r => simp [Option.elim]
    | none =>
      simp only [Option.elim]
      rcases hoffcases with hoff | hoff
      · rw [hoff, Nat.mod_eq_of_lt (by omega : idx + 1 < size_t_mod)]
        exact scanFuel_up_congr cs hlen cs.length (idx + 1) (cs.length + 1)
          (cs.length + 2) (by omega) (by omega) (by omega)
      · rw [hoff]
        by_cases hzero : idx = 0
        · subst hzero
          rw [Nat.zero_add, Nat.mod_eq_of_lt (by omega : size_t_mod - 1 < size_t_mod)]
          rw [scanFuel_out_of_range cs (size_t_mod - 1) (cs.length + 1) _ (by omega),
            scanFuel_out_of_range cs (size_t_mod - 1) (cs.length + 2) _ (by omega)]
        · rw [show idx + (size_t_mod - 1) = (idx - 1) + size_t_mod by omega,
            Nat.add_mod_right, Nat.mod_eq_of_lt (by omega : idx - 1 < size_t_mod)]
          exact scanFuel_down_congr cs hlen cs.length (idx - 1) (cs.length + 1)
            (cs.length + 2) (by omega) (by omega) (by omega)
  · intro fuel idx v h
    exact scanFuel_some_exists fuel idx v h
  · intro hall
    clear halign hlen
    induction frames with
    | nil => rfl
    | cons fr frest ih =>
      have hfr : ∀ c ∈ fr.children, getDefaultFocus c = none :=
        hall fr (List.mem_cons_self fr frest)
      have hrest2 : ∀ fr2 ∈ frest, ∀ c ∈ fr2.children, getDefaultFocus c = none :=
        fun fr2 h2 => hall fr2 (List.mem_cons_of_mem fr h2)
      rw [getNextFocusChain]
      by_cases hmis : directionMismatch fr.axis direction
      · rw [if_pos hmis]
        exact ih hrest2
      · rw [if_neg hmis]
        have hscan : scanChildren fr.children (offsetFor fr.axis direction)
            ((fr.curIndex + offsetFor fr.axis direction) % size_t_mod) = none :=
          scanFuel_all_none hfr _ _ _
        simp only [hscan]
        exact ih hrest2

/-- C2 witness: in a parentless ROW box with children
`[unfocusable, unfocusable, focusable]` and current cached index 0, a
RIGHT query skips the null-resolving sibling at index 1 and lands on the
resolution of the sibling at index 2; in a ROW box whose children all
resolve null, a RIGHT query returns null. -/
theorem getNextFocus_aligned_scan_witness :
    ([FView.leaf 1 false, FView.leaf 2 false, FView.leaf 3 true] : List FView).length
        < size_t_mod
  ∧ ¬ directionMismatch .ROW .RIGHT
  ∧ getNextFocusChain
      [Frame.mk .ROW [FView.leaf 1 false, FView.leaf 2 false, FView.leaf 3 true] 0]
      .RIGHT
      = (scanChildren [FView.leaf 1 false, FView.leaf 2 false, FView.leaf 3 true]
          (offsetFor .ROW .RIGHT) ((0 + offsetFor .ROW .RIGHT) % size_t_mod)).elim
          (getNextFocusChain [] .RIGHT) some
  ∧ ((∀ fr ∈ [Frame.mk .ROW [FView.leaf 4 false] 0], ∀ c ∈ fr.children,
        getDefaultFocus c = none) →
      getNextFocusChain [Frame.mk .ROW [FView.leaf 4 false] 0] .RIGHT = none)
  ∧ getNextFocusChain
      [Frame.mk .ROW [FView.leaf 1 false, FView.leaf 2 false, FView.leaf 3 true] 0]
      .RIGHT = some (FView.leaf 3 true)
  ∧ getNextFocusChain [Frame.mk .ROW [FView.leaf 4 false] 0] .RIGHT = none := by
  have h := getNextFocus_aligned_scan .ROW .RIGHT
    [FView.leaf 1 false, FView.leaf 2 false, FView.leaf 3 true] 0 []
    [Frame.mk .ROW [FView.leaf 4 false] 0] (by decide) (by decide)
  refine ⟨by decide, by decide, h.2.1, h.2.2.2.2, ?_, ?_⟩
  · rfl
  · exact h.2.2.2.2 (by intro fr hfr c hc; fin_cases hfr; fin_cases hc; rfl)

theorem sizeOf_children_lt (vid dfi : Nat) (f : Bool) (lf : Option FView)
    (cs : List FView) : sizeOf cs < sizeOf (FView.box vid f lf dfi cs) := by
  cases lf <;> simp

theorem sizeOf_cons_head_lt (c : FView) (rest : List FView) :
    sizeOf c < sizeOf (c :: rest) := by
  simp
  try omega

theorem sizeOf_cons_tail_lt (c : FView) (rest : List FView) :
    sizeOf rest < sizeOf (c :: rest) := by
  simp
  try omega

theorem append_eq_singleton {α : Type} {l1 l2 : List α} {x : α}
    (h : l1 ++ l2 = [x]) :
    (l1 = [] ∧ l2 = [x]) ∨ (l1 = [x] ∧ l2 = []) := by
  cases l1 with
  | nil => exact Or.inl ⟨rfl, by simpa using h⟩
  | cons a as =>
    rw [List.cons_append] at h
    injection h with h1 h2
    obtain ⟨ha, hb⟩ := List.append_eq_nil.mp h2
    exact Or.inr ⟨by rw [h1, ha], hb⟩

theorem gdf_none_of_no_focusables :
    ∀ n, (∀ t : FView, sizeOf t ≤ n → noLastFocus t = true → focusables t = [] →
            getDefaultFocus t = none)
       ∧ (∀ cs : List FView, sizeOf cs ≤ n → noLastFocusList cs = true →
            focusablesList cs = [] →
            (∀ idx, nthFocus cs idx = none) ∧ firstFocus cs = none) := by
  intro n
  induction n using Nat.strong_induction_on with
  | _ n ih =>
    constructor
    · intro t hsz hnl hfoc
      match t with
      | .leaf vid f =>
        rw [focusables] at hfoc
        rw [getDefaultFocus]
        cases f with
        | true => simp at hfoc
        | false => simp
      | .box vid f lf dfi cs =>
        rw [focusables] at hfoc
        cases f with
        | true => simp at hfoc
        | false =>
          cases lf with
          | some v => simp [noLastFocus] at hnl
          | none =>
            simp only [if_neg (by simp : ¬ (false = true)), List.nil_append] at hfoc
            simp only [noLastFocus, Bool.true_and] at hnl
            have hcs : sizeOf cs < n :=
              lt_of_lt_of_le (sizeOf_children_lt vid dfi false none cs) hsz
            obtain ⟨hnth, hfirst⟩ := (ih (sizeOf cs) hcs).2 cs le_rfl hnl hfoc
            rw [getDefaultFocus]
            simp only [if_neg (by simp : ¬ (false = true))]
            rw [hnth dfi, hfirst]
    · intro cs hsz hnl hfoc
      match cs with
      | [] =>
        refine ⟨fun idx => ?_, rfl⟩
        cases idx <;> rfl
      | c :: rest =>
        rw [focusablesList] at hfoc
        rw [noLastFocusList, Bool.and_eq_true] at hnl
        obtain ⟨hfc, hfr⟩ := List.append_eq_nil.mp hfoc
        obtain ⟨hnc, hnr⟩ := hnl
        have hc : sizeOf c < n :=
          lt_of_lt_of_le (sizeOf_cons_head_lt c rest) hsz
        have hr : sizeOf rest < n :=
          lt_of_lt_of_le (sizeOf_cons_tail_lt c rest) hsz
        have hgc : getDefaultFocus c = none :=
          (ih (sizeOf c) hc).1 c le_rfl hnc hfc
        obtain ⟨hnthr, hfirstr⟩ := (ih (sizeOf rest) hr).2 rest le_rfl hnr hfr
        constructor
        · intro idx
          cases idx with
          | zero => exact hgc
          | succ m => exact hnthr m
        · rw [firstFocus, hgc]
          exact hfirstr

theorem gdf_unique_focusable :
    ∀ n, (∀ t F, sizeOf t ≤ n → noLastFocus t = true → focusables t = [F] →
            getDefaultFocus t = some F)
       ∧ (∀ cs F, sizeOf cs ≤ n → noLastFocusList cs = true →
            focusablesList cs = [F] →
            firstFocus cs = some F
            ∧ ∀ idx, nthFocus cs idx = none ∨ nthFocus cs idx = some F) := by
  intro n
  induction n using Nat.strong_induction_on with
  | _ n ih =>
    constructor
    · intro t F hsz hnl hfoc
      match t with
      | .leaf vid f =>
        rw [focusables] at hfoc
        cases f with
        | false => simp at hfoc
        | true =>
          simp only [if_pos rfl] at hfoc
          injection hfoc with hF
          rw [getDefaultFocus, if_pos rfl, hF]
      | .box vid f lf dfi cs =>
        rw [focusables] at hfoc
        cases f with
        | true =>
          rw [if_pos rfl, List.singleton_append] at hfoc
          injection hfoc with hF hrest2
          rw [← hF, getDefaultFocus.eq_def]
          simp
        | false =>
          cases lf with
          | some v => simp [noLastFocus] at hnl
          | none =>
            simp only [if_neg (by simp : ¬ (false = true)), List.nil_append] at hfoc
            simp only [noLastFocus, Bool.true_and] at hnl
            have hcs : sizeOf cs < n :=
              lt_of_lt_of_le (sizeOf_children_lt vid dfi false none cs) hsz
            obtain ⟨hfirst, hnth⟩ := (ih (sizeOf cs) hcs).2 cs F le_rfl hnl hfoc
            rw [getDefaultFocus]
            simp only [if_neg (by simp : ¬ (false = true))]
            rcases hnth dfi with hdfi | hdfi
            · rw [hdfi]
              exact hfirst
            · rw [hdfi]
    · intro cs F hsz hnl hfoc
      match cs with
      | [] => simp [focusablesList] at hfoc
      | c :: rest =>
        rw [focusablesList] at hfoc
        rw [noLastFocusList, Bool.and_eq_true] at hnl
        obtain ⟨hnc, hnr⟩ := hnl
        have hc : sizeOf c < n :=
          lt_of_lt_of_le (sizeOf_cons_head_lt c rest) hsz
        have hr : sizeOf rest < n :=
          lt_of_lt_of_le (sizeOf_cons_tail_lt c rest) hsz
        rcases append_eq_singleton hfoc with ⟨hfc, hfr⟩ | ⟨hfc, hfr⟩
        · have hgc : getDefaultFocus c = none :=
            (gdf_none_of_no_focusables (sizeOf c)).1 c le_rfl hnc hfc
          obtain ⟨hfirstr, hnthr⟩ := (ih (sizeOf rest) hr).2 rest F le_rfl hnr hfr
          constructor
          · rw [firstFocus, hgc]
            exact hfirstr
          · intro idx
            cases idx with
            | zero => exact Or.inl hgc
            | succ m => exact hnthr m
        · have hgc : getDefaultFocus c = some F :=
            (ih (sizeOf c) hc).1 c F le_rfl hnc hfc
          obtain ⟨hnthr, hfirstr⟩ :=
            (gdf_none_of_no_focusables (sizeOf rest)).2 rest le_rfl hnr hfr
          constructor
          · rw [firstFocus, hgc]
          · intro idx
            cases idx with
            | zero => exact Or.inr hgc
            | succ m => exact Or.inl (hnthr m)

theorem nthFocus_nil (idx : Nat) : nthFocus ([] : List FView) idx = none := by
  cases idx <;> rfl

/-- C3: `getDefaultFocus` on a Box returns the Box itself when focusable;
otherwise, when a `lastFocusedView` is remembered, that view's own
resolution; otherwise the resolution of the child at
`defaultFocusedIndex` when non-null, else the first child in sequence
order whose resolution is non-null, else null.  In particular it returns
null on an empty non-focusable Box, and on a tree (with no remembered
focus) holding exactly one focusable node it returns that node,
regardless of nesting depth. -/
theorem getDefaultFocus_resolution (vid dfi : Nat) (cs : List FView)
    (lf : Option FView) (v t F : FView) :
    (getDefaultFocus (FView.box vid true lf dfi cs)
        = some (FView.box vid true lf dfi cs))
  ∧ (getDefaultFocus (FView.box vid false (some v) dfi cs) = getDefaultFocus v)
  ∧ (getDefaultFocus (FView.box vid false none dfi cs)
      = match nthFocus cs dfi with
        | some r => some r
        | none => firstFocus cs)
  ∧ (getDefaultFocus (FView.box vid false none dfi []) = none)
  ∧ (noLastFocus t = true → focusables t = [F] → getDefaultFocus t = some F) := by
  refine ⟨?_, ?_, ?_, ?_, ?_⟩
  · rw [getDefaultFocus.eq_def]
    simp
  · rw [getDefaultFocus.eq_def]
    simp
  · rw [getDefaultFocus.eq_def]
    simp
  · rw [getDefaultFocus.eq_def]
    simp [nthFocus_nil]
    rfl
  · intro h1 h2
    exact (gdf_unique_focusable (sizeOf t)).1 t F le_rfl h1 h2

/-- C3 witness: the nested tree `wTree` (no remembered focus, single
focusable leaf two levels down, `defaultFocusedIndex` even out of range)
resolves to that leaf. -/
theorem getDefaultFocus_resolution_witness :
    noLastFocus wTree = true
  ∧ focusables wTree = [FView.leaf 3 true]
  ∧ getDefaultFocus wTree = some (FView.leaf 3 true) :=
  ⟨rfl, rfl,
   (getDefaultFocus_resolution 0 0 [] none (FView.leaf 0 false) wTree
      (FView.leaf 3 true)).2.2.2.2 rfl rfl⟩

end Borealis
